import Mathlib

/-!
Verification of the Reversi AI engine (positional-weight worker, God-Mode
revision, and the N-tuple/TD core) against its design specification.

The board of the worker engine is an 8×8 grid addressed by integer row and
column; cell values are 0 (empty), 1 (black) and 2 (white), the opponent of
player `p` being `3 - p`.  Boards are modelled as total functions
`Int → Int → Int`; the source only ever reads cells after an explicit bounds
check, which the embedding keeps.  The bounded ray walks of the source
(`canFlip`, the flipping loop of `execute`) are `while` loops that run at
most 8 iterations on an 8×8 board; they are embedded as fuel recursion with
fuel 8, which is enough for every guarded call.
-/

/-- Cell contents of the worker engine board, addressed by integer row and
column. -/
abbrev Board : Type := Int → Int → Int

/-- The eight ray directions, in source order. -/
def directions : List (Int × Int) :=
  [(-1,-1),(-1,0),(-1,1),(0,-1),(0,1),(1,-1),(1,0),(1,1)]

/-- Bounds check used by every ray walk of the source. -/
def inB (x y : Int) : Prop := 0 ≤ x ∧ x < 8 ∧ 0 ≤ y ∧ y < 8

instance inB.dec (x y : Int) : Decidable (inB x y) := by
  unfold inB; infer_instance

/-- The ray walk of `canFlip`: from the current cell, keep walking while the
cell holds the opponent's disc, answer `hasOpp` on the mover's disc, and
answer `false` on an empty cell or the board edge. -/
def canFlipAux (b : Board) (dr dc p : Int) : Nat → Int → Int → Bool → Bool
  | 0, _, _, _ => false
  | f+1, nr, nc, hasOpp =>
    if inB nr nc then
      if b nr nc = 3 - p then canFlipAux b dr dc p f (nr+dr) (nc+dc) true
      else if b nr nc = p then hasOpp
      else false
    else false

/-- `canFlip(b, r, c, d, p)` of the worker source: the ray from `(r,c)` in
direction `d` starts with a non-empty run of opponent discs closed off by a
disc of `p`. -/
def canFlip (b : Board) (r c dr dc p : Int) : Bool :=
  canFlipAux b dr dc p 8 (r + dr) (c + dc) false

/-- `isValid` of the worker source: the cell is empty and some direction can
flip. -/
def isValid (b : Board) (r c p : Int) : Bool :=
  if b r c ≠ 0 then false
  else directions.any (fun d => canFlip b r c d.1 d.2 p)

/-- The 64 board cells in row-major order, as produced by the source's
double loop over rows and columns. -/
def cells : List (Nat × Nat) := (List.range 8).product (List.range 8)

/-- `getValidMoves` of the worker source: all cells passing `isValid`, in
row-major order. -/
def getValidMoves (b : Board) (p : Int) : List (Nat × Nat) :=
  cells.filter (fun rc => isValid b rc.1 rc.2 p)

/-- Functional update of one board cell. -/
def setCell (b : Board) (r c v : Int) : Board :=
  fun x y => if x = r ∧ y = c then v else b x y

/-- The flipping loop of `execute`: walk the ray, overwriting cells with the
mover's disc until a cell already holding it is reached.  The source runs
this loop only under a `canFlip` guard, which bounds it by 8 iterations. -/
def flipRun (dr dc p : Int) : Nat → Board → Int → Int → Board
  | 0, b, _, _ => b
  | f+1, b, nr, nc =>
    if b nr nc = p then b
    else flipRun dr dc p f (setCell b nr nc p) (nr+dr) (nc+dc)

/-- One direction step of `execute`: flip the ray if `canFlip` holds on the
current board. -/
def flipStep (r c p : Int) (b : Board) (d : Int × Int) : Board :=
  if canFlip b r c d.1 d.2 p then flipRun d.1 d.2 p 8 b (r + d.1) (c + d.2)
  else b

/-- `execute` of the worker source: place the mover's disc, then flip every
direction in turn on the evolving board. -/
def execute (b : Board) (r c p : Int) : Board :=
  directions.foldl (flipStep r c p) (setCell b r c p)

/-- `countEmpty` of the worker source (number of cells holding 0). -/
def countEmpty (b : Board) : Nat :=
  cells.countP (fun rc => decide (b rc.1 rc.2 = 0))

/-- The opening position set up by the worker's training loop:
`board[3][3]=2; board[4][4]=2; board[3][4]=1; board[4][3]=1`. -/
def startBoard : Board := fun r c =>
  if (r = 3 ∧ c = 3) ∨ (r = 4 ∧ c = 4) then 2
  else if (r = 3 ∧ c = 4) ∨ (r = 4 ∧ c = 3) then 1
  else 0

/-!
Evaluation and search of the worker engine.  Weight tables are modelled as
total functions `Int → Int → ℚ` (the source holds JavaScript numbers that
become non-integral after training with learning rate 1.5).  Search values
carry the `±Infinity` sentinels of the source, so they live in
`WithBot (WithTop ℚ)`.
-/

/-- A positional weight table (8×8, addressed like the board). -/
abbrev WTable : Type := Int → Int → ℚ

/-- Search/evaluation values with the `-Infinity` and `Infinity` sentinels
of the source. -/
abbrev EV : Type := WithBot (WithTop ℚ)

/-- Injection of a finite evaluation score into `EV`. -/
def toEV (q : ℚ) : EV := ((q : WithTop ℚ) : EV)

/-- Per-cell term of the positional evaluation: `+w` on the mover's disc,
`-w` on the opponent's. -/
def cellTerm (w : WTable) (b : Board) (p r c : Int) : ℚ :=
  if b r c = p then w r c else if b r c = 3 - p then -(w r c) else 0

/-- The linear positional term of both weight-table evaluators. -/
def baseScore (w : WTable) (b : Board) (p : Int) : ℚ :=
  (cells.map (fun rc => cellTerm w b p rc.1 rc.2)).sum

/-- The four corner cells, in source order. -/
def cornersL : List (Int × Int) := [(0,0),(0,7),(7,0),(7,7)]

/-- Mobility term shared by both evaluators:
`(myMoves - oppMoves) * 15`. -/
def mobilityTerm (b : Board) (p : Int) : ℚ :=
  (((getValidMoves b p).length : ℚ) - ((getValidMoves b (3-p)).length : ℚ)) * 15

/-- Corner bonus of the worker evaluator (±150 per owned corner). -/
def cornerTerm (b : Board) (p : Int) : ℚ :=
  (cornersL.map (fun rc =>
    if b rc.1 rc.2 = p then (150:ℚ)
    else if b rc.1 rc.2 = 3 - p then -150 else 0)).sum

/-- `evaluate` of the worker source: weights + corner bonus + mobility. -/
def evaluate (w : WTable) (b : Board) (p : Int) : ℚ :=
  baseScore w b p + cornerTerm b p + mobilityTerm b p

/-- Danger cells checked while the matching corner is empty
(`dangerMap` of the God-Mode source). -/
def dangerMap (rc : Int × Int) : List (Int × Int) :=
  if rc = (0,0) then [(0,1),(1,0),(1,1)]
  else if rc = (0,7) then [(0,6),(1,7),(1,6)]
  else if rc = (7,0) then [(6,0),(7,1),(6,1)]
  else [(7,6),(6,7),(6,6)]

/-- Corner and danger-zone term of the God-Mode evaluator: ±500 for an owned
corner; while a corner is empty, ∓300 per own/opponent disc on its danger
cells. -/
def cornerTermGM (b : Board) (p : Int) (rc : Int × Int) : ℚ :=
  if b rc.1 rc.2 = p then 500
  else if b rc.1 rc.2 = 3 - p then -500
  else ((dangerMap rc).map (fun xy =>
    if b xy.1 xy.2 = p then (-300:ℚ)
    else if b xy.1 xy.2 = 3 - p then 300 else 0)).sum

/-- `evaluate` of the God-Mode source: weights + corner/danger rules +
mobility. -/
def evaluateGM (w : WTable) (b : Board) (p : Int) : ℚ :=
  baseScore w b p + (cornersL.map (cornerTermGM b p)).sum + mobilityTerm b p

/-- `evaluateFinal` of the worker source: disc differential times 1000. -/
def evaluateFinal (b : Board) (p : Int) : ℚ :=
  ((cells.map (fun rc =>
    if b rc.1 rc.2 = p then (1:ℚ)
    else if b rc.1 rc.2 = 3 - p then -1 else 0)).sum) * 1000

/-- Disc count of one side (used to restate the disc differential). -/
def sideCount (b : Board) (v : Int) : Nat :=
  cells.countP (fun rc => decide (b rc.1 rc.2 = v))

/-- Total number of non-empty cells. -/
def totalDiscs (b : Board) : Nat :=
  cells.countP (fun rc => decide (b rc.1 rc.2 ≠ 0))

/-- `minimax` of the worker source: depth-bounded alpha-beta search.  The
`break` of the source's move loops is modelled by a `stopped` flag in the
fold state, and the running maximum, the running bound and the flag evolve
exactly as in the source. -/
def minimax (w : WTable) : Nat → Board → EV → EV → Bool → Int → EV
  | 0, b, _, _, _, p => toEV (evaluate w b p)
  | d+1, b, α, β, isMax, p =>
    let curP := if isMax then p else 3 - p
    let moves := getValidMoves b curP
    if moves.isEmpty then
      if (getValidMoves b (3 - curP)).isEmpty then toEV (evaluateFinal b p)
      else minimax w d b α β (!isMax) p
    else if isMax then
      (moves.foldl (fun st m =>
        if st.2.2 then st
        else
          let v := minimax w d (execute b m.1 m.2 curP) st.2.1 β false p
          (max st.1 v, max st.2.1 v, decide (β ≤ max st.2.1 v)))
        ((⊥ : EV), α, false)).1
    else
      (moves.foldl (fun st m =>
        if st.2.2 then st
        else
          let v := minimax w d (execute b m.1 m.2 curP) α st.2.1 true p
          (min st.1 v, min st.2.1 v, decide (min st.2.1 v ≤ α)))
        ((⊤ : EV), β, false)).1

/-- Depth policy of the worker source:
`maxDepth = (empty <= 14) ? empty : 4`. -/
def maxDepthAW (b : Board) : Nat :=
  if countEmpty b ≤ 14 then countEmpty b else 4

/-- Depth policy of the God-Mode source:
`maxDepth = (empty <= 14) ? empty : 6`. -/
def maxDepthGM (b : Board) : Nat :=
  if countEmpty b ≤ 14 then countEmpty b else 6

/-- Insertion into a list sorted by the Boolean comparator `le`. -/
def insertSorted (le : (Nat × Nat) → (Nat × Nat) → Bool) (x : Nat × Nat) :
    List (Nat × Nat) → List (Nat × Nat)
  | [] => [x]
  | y :: ys => if le x y then x :: y :: ys else y :: insertSorted le x ys

/-- Comparator sort modelling the source's `Array.prototype.sort`; the
claims proved below depend only on the output being a permutation of the
input, which any comparator sort guarantees. -/
def sortBy (le : (Nat × Nat) → (Nat × Nat) → Bool) (l : List (Nat × Nat)) :
    List (Nat × Nat) :=
  l.foldr (insertSorted le) []

/-- `getBestMove` of the worker source: `null` on no legal move, otherwise
order the moves by raw weight descending, then scan them, keeping the move
whose search value strictly improves the running `alpha` (`beta` stays
`Infinity` at the root). -/
def getBestMove (w : WTable) (b : Board) (p : Int) : Option (Nat × Nat) :=
  let moves := getValidMoves b p
  if moves.isEmpty then none
  else
    let md := maxDepthAW b
    let sorted := sortBy (fun m1 m2 => decide (w m2.1 m2.2 ≤ w m1.1 m1.2)) moves
    some ((sorted.foldl (fun st m =>
      let v := minimax w (md - 1) (execute b m.1 m.2 p) st.2 (⊤ : EV) false p
      if st.2 < v then (m, v) else st)
      (sorted.headI, (⊥ : EV))).1)

/-!
The two positional-weight learning procedures.  Both walk the final board in
row-major order and, on every cell held by the credited side, touch the
cell's weight and its three mirror images; they differ in how: the worker
revision adds the update to all four cells and clamps only the base cell to
±500, the God-Mode revision writes one clamped (±200) value into all four.
-/

/-- Functional update of one weight-table entry. -/
def setW (w : WTable) (r c : Int) (v : ℚ) : WTable :=
  fun x y => if x = r ∧ y = c then v else w x y

/-- Clamp of the worker revision: `Math.max(-500, Math.min(500, x))`. -/
def clampAW (x : ℚ) : ℚ := max (-500) (min 500 x)

/-- Clamp of the God-Mode revision: `Math.max(-200, Math.min(200, x))`. -/
def clampGM (x : ℚ) : ℚ := max (-200) (min 200 x)

/-- One cell of the worker revision's `train` loop: add
`sign * learningRate` (rate 1.5) to the cell and its three mirrors, then
clamp the base cell only. -/
def stepAW (board : Board) (aiP : Int) (sign : ℚ) (w : WTable)
    (rc : Nat × Nat) : WTable :=
  if board rc.1 rc.2 = aiP then
    let r : Int := rc.1
    let c : Int := rc.2
    let u := sign * (3/2)
    let w1 := setW w r c (w r c + u)
    let w2 := setW w1 r (7-c) (w1 r (7-c) + u)
    let w3 := setW w2 (7-r) c (w2 (7-r) c + u)
    let w4 := setW w3 (7-r) (7-c) (w3 (7-r) (7-c) + u)
    setW w4 r c (clampAW (w4 r c))
  else w

/-- `train` of the worker source (positional-weight, additive symmetric
update): a draw returns immediately, otherwise every cell held by the
credited side is processed by `stepAW`. -/
def trainAW (w : WTable) (board : Board) (winner aiP : Int) : WTable :=
  if winner = 0 then w
  else cells.foldl (stepAW board aiP (if winner = aiP then 1 else -1)) w

/-- Write one value into a cell and its three mirror images (the God-Mode
symmetric update). -/
def writeOrbit (w : WTable) (r c : Int) (v : ℚ) : WTable :=
  setW (setW (setW (setW w r c v) r (7-c) v) (7-r) c v) (7-r) (7-c) v

/-- One cell of the God-Mode `train` loop: clamp the nudged base weight and
copy the clamped value into all four mirror cells. -/
def stepGM (board : Board) (aiP : Int) (sign : ℚ) (w : WTable)
    (rc : Nat × Nat) : WTable :=
  if board rc.1 rc.2 = aiP then
    writeOrbit w rc.1 rc.2 (clampGM (w rc.1 rc.2 + sign * 1))
  else w

/-- `train` of the God-Mode source (positional-weight, unified symmetric
update, learning rate 1.0). -/
def trainGM (w : WTable) (board : Board) (winner aiP : Int) : WTable :=
  if winner = 0 then w
  else cells.foldl (stepGM board aiP (if winner = aiP then 1 else -1)) w

/-!
The N-tuple core (`ai_core.js`).  Its board is a flat 64-cell array holding
1 (black), -1 (white) or 0, modelled as `Nat → Int`; its learned state is
one lookup table per tuple shape, modelled as `Nat → Nat → ℚ` (tuple id,
base-3 pattern index). -/

/-- Flat 64-cell board of the N-tuple core. -/
abbrev Board64 : Type := Nat → Int

/-- Lookup tables of the N-tuple network (tuple id, base-3 index). -/
abbrev NTable : Type := Nat → Nat → ℚ

/-- Learning rate of the N-tuple core (0.01). -/
def learningRateNT : ℚ := 1/100

/-- The four tuple shapes of the source (`rawTuples`). -/
def rawTuples : List (List Nat) :=
  [[0, 1, 2, 3, 8, 9, 10, 11],
   [0, 1, 2, 3, 4, 5, 6, 7],
   [0, 9, 18, 27, 36, 45, 54, 63],
   [18, 19, 26, 27, 20, 21, 28, 29]]

/-- `generateSymmetryMaps` of the source: cell `i = r*8+c` is sent through
a horizontal mirror (bit 0), a vertical mirror (bit 1) and a diagonal
transpose (bit 2) selected by the bits of `s`. -/
def symMap (s i : Nat) : Nat :=
  let r := i / 8
  let c := i % 8
  let c1 := if s % 2 = 1 then 7 - c else c
  let r1 := if s / 2 % 2 = 1 then 7 - r else r
  if s / 4 % 2 = 1 then c1 * 8 + r1 else r1 * 8 + c1

/-- Base-3 digit of one cell: empty ↦ 0, black ↦ 1, white ↦ 2. -/
def cellVal (x : Int) : Nat := if x = 0 then 0 else if x = 1 then 1 else 2

/-- The base-3 pattern index of one tuple under one symmetry, accumulating
`index += val * power; power *= 3` as in the source. -/
def tupleIndex (b : Board64) (s : Nat) (tuple : List Nat) : Nat :=
  (tuple.foldl
    (fun acc pos => (acc.1 + cellVal (b (symMap s pos)) * acc.2, acc.2 * 3))
    ((0:Nat), (1:Nat))).1

/-- `evaluate` of the N-tuple core: sum of the looked-up values over every
tuple shape and all eight symmetries (a black-is-positive score). -/
def evaluateNT (w : NTable) (b : Board64) : ℚ :=
  ((List.range rawTuples.length).map (fun t =>
    ((List.range 8).map
      (fun s => w t (tupleIndex b s (rawTuples.getD t [])))).sum)).sum

/-- The perspective-adjusted N-tuple score used by `getBestMove`:
the black score, negated for the white mover (`if turn === -1 score =
-score`). -/
def scoreNT (w : NTable) (b : Board64) (turn : Int) : ℚ :=
  if turn = -1 then -(evaluateNT w b) else evaluateNT w b

/-- Functional update of one lookup-table entry. -/
def bumpNT (w : NTable) (t i : Nat) (d : ℚ) : NTable :=
  fun t2 i2 => if t2 = t ∧ i2 = i then w t2 i2 + d else w t2 i2

/-- `updateWeights` of the N-tuple core: add `error * learningRate` to the
entry indexed by every tuple × symmetry combination active on the board
(same indexing as `evaluate`). -/
def updateWeightsNT (w : NTable) (b : Board64) (error : ℚ) : NTable :=
  let delta := error * learningRateNT
  (List.range rawTuples.length).foldl (fun wa t =>
    (List.range 8).foldl (fun wa2 s =>
      bumpNT wa2 t (tupleIndex b s (rawTuples.getD t [])) delta) wa) w

/-- The reverse loop of `train` of the N-tuple core: argument `i+1` means
index `i` of the history is processed next, exactly as the source's
`for (let i = history.length - 1; i >= 0; i--)`. -/
def trainAux (hist : List (Board64 × Int)) : Nat → NTable → ℚ → NTable
  | 0, w, _ => w
  | i+1, w, target =>
    let board := (hist.getD i ((fun _ => 0), 0)).1
    let currentVal := evaluateNT w board
    trainAux hist i (updateWeightsNT w board (target - currentVal)) currentVal

/-- `train` of the N-tuple core (TD(0) from a finished game). -/
def train (w : NTable) (hist : List (Board64 × Int)) (result : ℚ) : NTable :=
  trainAux hist hist.length w result

/-- Modelled from the spec's wording of the TD update, for comparison with
`train`: traverse the history in reverse with a running target initialised
to the final result; at each step compute `currentValue`, add
`(target - currentValue) * learningRate` to every active lookup-table
entry, then set `target = currentValue` and move to the previous ply. -/
def trainSpec (w : NTable) (hist : List (Board64 × Int)) (result : ℚ) :
    NTable :=
  (hist.reverse.foldl (fun acc st =>
    let currentVal := evaluateNT acc.1 st.1
    (updateWeightsNT acc.1 st.1 (acc.2 - currentVal), currentVal))
    (w, result)).1

/-- `canFlip` ray walk of the N-tuple core (same shape as the worker's,
over the flat board with players 1 and -1). -/
def canFlip64Aux (b : Board64) (dr dc turn : Int) : Nat → Int → Int → Bool → Bool
  | 0, _, _, _ => false
  | f+1, nr, nc, hasOpp =>
    if inB nr nc then
      let v := b (nr * 8 + nc).toNat
      if v = -turn then canFlip64Aux b dr dc turn f (nr+dr) (nc+dc) true
      else if v = turn then hasOpp
      else false
    else false

/-- `canFlip` of the N-tuple core: some direction closes a non-empty
opponent run from cell `idx`. -/
def canFlip64 (b : Board64) (idx : Nat) (turn : Int) : Bool :=
  let r : Int := idx / 8
  let c : Int := idx % 8
  directions.any (fun d => canFlip64Aux b d.1 d.2 turn 8 (r + d.1) (c + d.2) false)

/-- `getLegalMoves` of the N-tuple core: empty cells that can flip. -/
def getLegalMoves64 (b : Board64) (turn : Int) : List Nat :=
  (List.range 64).filter (fun i => decide (b i = 0) && canFlip64 b i turn)

/-- Functional update of one flat-board cell. -/
def set64 (b : Board64) (i : Nat) (v : Int) : Board64 :=
  fun j => if j = i then v else b j

/-- The flippable run of `simulateMove`: `some run` when the walk from the
given cell crosses opponent discs and ends on a mover's disc, `none` when
it ends on an empty cell or the edge. -/
def oppRun64 (b : Board64) (dr dc turn : Int) : Nat → Int → Int → Option (List Nat)
  | 0, _, _ => none
  | f+1, nr, nc =>
    if inB nr nc then
      let idx := (nr * 8 + nc).toNat
      if b idx = -turn then
        (oppRun64 b dr dc turn f (nr+dr) (nc+dc)).map (fun l => idx :: l)
      else if b idx = turn then some []
      else none
    else none

/-- `simulateMove` of the N-tuple core: place the disc, then for each
direction flip the closed opponent run, reading the evolving board. -/
def simulateMove (b : Board64) (moveIdx : Nat) (turn : Int) : Board64 :=
  let r : Int := moveIdx / 8
  let c : Int := moveIdx % 8
  directions.foldl (fun bb d =>
    match oppRun64 bb d.1 d.2 turn 8 (r + d.1) (c + d.2) with
    | some flips => flips.foldl (fun b2 i => set64 b2 i turn) bb
    | none => bb)
    (set64 b moveIdx turn)

/-- `getBestMove` of the N-tuple core: `-1` (pass) on no legal move,
otherwise the legal move whose one-ply lookahead score strictly improves
the running best (`score > bestScore`, starting from `-Infinity`). -/
def getBestMoveNT (w : NTable) (b : Board64) (turn : Int) : Int :=
  let legalMoves := getLegalMoves64 b turn
  if legalMoves.isEmpty then -1
  else
    (legalMoves.foldl (fun st move =>
      let nextBoard := simulateMove b move turn
      let score := scoreNT w nextBoard turn
      if st.1 < ((score : ℚ) : WithBot ℚ) then (((score : ℚ) : WithBot ℚ), (move : Int))
      else st)
      ((⊥ : WithBot ℚ), (-1 : Int))).2

/-- The opening position of the N-tuple trainer's fast engine, flattened to
64 cells (white on d4/e5, black on e4/d5). -/
def start64 : Board64 := fun i =>
  if i = 27 then -1 else if i = 28 then 1
  else if i = 35 then 1 else if i = 36 then -1 else 0

/-!
Spec-side definitions: the ray property defining a legal move (claim C1)
and the mirror-orbit notions used to state the symmetric-update properties
(claims C6 and C7), plus the concrete boards and tables used to instantiate
the theorems.
-/

/-- The claim's characterisation of a flippable direction: some `k ≥ 1`
consecutive cells along the ray hold opponent discs and the next cell holds
the mover's disc, all within the board. -/
def FlipRay (b : Board) (r c dr dc p : Int) : Prop :=
  ∃ k : Nat, 1 ≤ k ∧
    (∀ j : Nat, 1 ≤ j → j ≤ k →
      inB (r + j*dr) (c + j*dc) ∧ b (r + j*dr) (c + j*dc) = 3 - p) ∧
    inB (r + (k+1)*dr) (c + (k+1)*dc) ∧ b (r + (k+1)*dr) (c + (k+1)*dc) = p

/-- Membership in the 4-cell mirror orbit of `(r, c)`. -/
def OrbMem (x y r c : Int) : Prop :=
  (x = r ∧ y = c) ∨ (x = r ∧ y = 7-c) ∨ (x = 7-r ∧ y = c) ∨ (x = 7-r ∧ y = 7-c)

/-- All four mirror cells of `(r, c)` hold the same weight. -/
def OrbEq (w : WTable) (r c : Int) : Prop :=
  w r c = w r (7-c) ∧ w r c = w (7-r) c ∧ w r c = w (7-r) (7-c)

/-- A full board (every cell holds a black disc): both sides are stuck. -/
def fullBoard : Board := fun _ _ => 1

/-- A board whose only disc is a black one on cell (0,0). -/
def bCorner : Board := fun r c => if r = 0 ∧ c = 0 then 1 else 0

/-- A board whose only disc is a black one on cell (2,3). -/
def bMid : Board := fun r c => if r = 2 ∧ c = 3 then 1 else 0

/-- A weight table that is 50 at (0,7) and 0 elsewhere: the mirror orbit of
(0,0) starts out of sync. -/
def wAsym : WTable := fun r c => if r = 0 ∧ c = 7 then 50 else 0

/-- The constant weight table holding 500 everywhere (the worker clamp
boundary). -/
def w500 : WTable := fun _ _ => 500

/-- The all-zero weight table. -/
def wZero : WTable := fun _ _ => 0

/-- The all-zero N-tuple lookup tables. -/
def nZero : NTable := fun _ _ => 0

/-!
Sanity checks of the embedding on concrete positions.
-/

example : (2, 3) ∈ getValidMoves startBoard 1 := by decide
example : getValidMoves startBoard 1 =
    [(2, 3), (3, 2), (4, 5), (5, 4)] := by decide
example : execute startBoard 2 3 1 3 3 = 1 := by decide
example : countEmpty startBoard = 60 := by decide
example : getLegalMoves64 start64 1 = [19, 26, 37, 44] := by decide
example : simulateMove start64 19 1 27 = 1 := by decide

/-!
Generic list lemmas used by several developments below.
-/

/-- A fold whose step is the identity on every processed element leaves the
accumulator unchanged. -/
lemma foldl_noop {σ α : Type} (f : σ → α → σ) :
    ∀ (l : List α), (∀ x ∈ l, ∀ s, f s x = s) → ∀ s, l.foldl f s = s := by
  intro l
  induction l with
  | nil => intro _ s; rfl
  | cons a t ih =>
    intro h s
    simp only [List.foldl_cons]
    rw [h a (List.mem_cons_self a t), ih]
    intro x hx s2
    exact h x (List.mem_cons_of_mem a hx) s2

/-- A property preserved by every step of a fold holds of the result. -/
lemma foldl_preserve {σ α : Type} (f : σ → α → σ) (P : σ → Prop)
    (hf : ∀ s x, P s → P (f s x)) :
    ∀ (l : List α) (s : σ), P s → P (l.foldl f s) := by
  intro l
  induction l with
  | nil => intro s hs; exact hs
  | cons a t ih => intro s hs; exact ih (f s a) (hf s a hs)

/-- Any list on which `any` succeeds splits at the first succeeding
element. -/
lemma any_first_split {α : Type} (f : α → Bool) :
    ∀ (l : List α), l.any f = true →
      ∃ l1 x l2, l = l1 ++ x :: l2 ∧ f x = true ∧ ∀ y ∈ l1, f y = false := by
  intro l
  induction l with
  | nil => intro h; simp at h
  | cons a t ih =>
    intro h
    by_cases ha : f a = true
    · exact ⟨[], a, t, rfl, ha, by intro y hy; simp at hy⟩
    · have ht : t.any f = true := by
        simp only [List.any_cons, Bool.or_eq_true] at h
        exact h.resolve_left ha
      obtain ⟨l1, x, l2, hsplit, hx, hl1⟩ := ih ht
      refine ⟨a :: l1, x, l2, by rw [hsplit]; rfl, hx, ?_⟩
      intro y hy
      rcases List.mem_cons.1 hy with rfl | hy2
      · exact Bool.eq_false_iff.2 ha
      · exact hl1 y hy2

/-- Sum of a pointwise-negated list of rationals. -/
lemma sum_map_neg {α : Type} (f g : α → ℚ) :
    ∀ (l : List α), (∀ x ∈ l, f x = -(g x)) →
      (l.map f).sum = -((l.map g).sum) := by
  intro l
  induction l with
  | nil => intro _; simp
  | cons a t ih =>
    intro h
    simp only [List.map_cons, List.sum_cons]
    rw [h a (List.mem_cons_self a t), ih (fun x hx => h x (List.mem_cons_of_mem a hx))]
    ring

/-- Monotone `countP` bound used by the disc-count invariant. -/
lemma countP_le {α : Type} (p q : α → Bool) :
    ∀ (l : List α), (∀ x ∈ l, p x = true → q x = true) →
      l.countP p ≤ l.countP q := by
  intro l
  induction l with
  | nil => intro _; simp
  | cons a t ih =>
    intro h
    have ht := ih (fun x hx => h x (List.mem_cons_of_mem a hx))
    by_cases ha : p a = true
    · have hqa := h a (List.mem_cons_self a t) ha
      rw [List.countP_cons_of_pos _ _ ha, List.countP_cons_of_pos _ _ hqa]
      omega
    · rw [List.countP_cons_of_neg _ _ ha, List.countP_cons]
      omega

/-!
Evaluation antisymmetry (both evaluation variants).  Over the integers no
player value `p` can coincide with its opponent `3 - p`, so every branch of
the evaluators is pointwise antisymmetric under swapping the perspective.
-/

lemma opp_opp (p : Int) : 3 - (3 - p) = p := by ring

lemma cellTerm_neg (w : WTable) (b : Board) (p r c : Int) :
    cellTerm w b p r c = -(cellTerm w b (3-p) r c) := by
  have hne : ¬ p = 3 - p := by omega
  have hne2 : ¬ (3 - p) = p := by omega
  unfold cellTerm
  rw [opp_opp]
  by_cases hp : b r c = p
  · by_cases ho : b r c = 3 - p
    · exfalso; omega
    · simp [hp, ho, hne, hne2]
  · by_cases ho : b r c = 3 - p
    · simp [hp, ho, hne, hne2]
    · simp [hp, ho]

lemma baseScore_neg (w : WTable) (b : Board) (p : Int) :
    baseScore w b p = -(baseScore w b (3-p)) := by
  unfold baseScore
  exact sum_map_neg _ _ cells (fun rc _ => cellTerm_neg w b p rc.1 rc.2)

lemma cornerTermGM_neg (b : Board) (p : Int) (rc : Int × Int) :
    cornerTermGM b p rc = -(cornerTermGM b (3-p) rc) := by
  have hne : ¬ p = 3 - p := by omega
  have hne2 : ¬ (3 - p) = p := by omega
  unfold cornerTermGM
  rw [opp_opp]
  by_cases hp : b rc.1 rc.2 = p
  · by_cases ho : b rc.1 rc.2 = 3 - p
    · exfalso; omega
    · simp [hp, ho, hne, hne2]
  · by_cases ho : b rc.1 rc.2 = 3 - p
    · simp [hp, ho, hne, hne2]
    · simp only [if_neg hp, if_neg ho]
      refine sum_map_neg _ _ (dangerMap rc) (fun xy _ => ?_)
      by_cases hx : b xy.1 xy.2 = p
      · by_cases hy : b xy.1 xy.2 = 3 - p
        · exfalso; omega
        · simp [hx, hy, hne, hne2]
      · by_cases hy : b xy.1 xy.2 = 3 - p
        · simp [hx, hy, hne, hne2]
        · simp [hx, hy]

lemma mobilityTerm_neg (b : Board) (p : Int) :
    mobilityTerm b p = -(mobilityTerm b (3-p)) := by
  unfold mobilityTerm
  rw [opp_opp]
  ring

/-- Strict `countP` bound: pointwise monotone plus one strict witness. -/
lemma countP_lt {α : Type} (p q : α → Bool) :
    ∀ (l : List α), (∀ x ∈ l, p x = true → q x = true) →
      ∀ a ∈ l, p a = false → q a = true →
        l.countP p < l.countP q := by
  intro l
  induction l with
  | nil => intro _ a ha; simp at ha
  | cons x t ih =>
    intro h a ha hpa hqa
    have hmono := countP_le p q t (fun y hy => h y (List.mem_cons_of_mem x hy))
    rcases List.mem_cons.1 ha with rfl | hat
    · rw [List.countP_cons_of_neg _ _ (by simp [hpa]), List.countP_cons_of_pos _ _ hqa]
      omega
    · have hlt := ih (fun y hy => h y (List.mem_cons_of_mem x hy)) a hat hpa hqa
      by_cases hx : p x = true
      · rw [List.countP_cons_of_pos _ _ hx,
          List.countP_cons_of_pos _ _ (h x (List.mem_cons_self x t) hx)]
        omega
      · rw [List.countP_cons_of_neg _ _ hx, List.countP_cons]
        omega

/-- C2: for every board and both players, the evaluation score is
antisymmetric under swapping the perspective, for both evaluation variants:
the positional-weight evaluator with corner bonus, danger-zone penalty and
mobility terms (`evaluateGM`), and the N-tuple network, whose
white-perspective score is the negation of the black-perspective score
(`scoreNT`). -/
theorem score_antisymmetry :
    (∀ (w : WTable) (b : Board) (p : Int),
      evaluateGM w b p = -(evaluateGM w b (3-p))) ∧
    (∀ (w : NTable) (b : Board64) (t : Int), t = 1 ∨ t = -1 →
      scoreNT w b t = -(scoreNT w b (-t))) := by
  constructor
  · intro w b p
    unfold evaluateGM
    rw [baseScore_neg, mobilityTerm_neg,
      sum_map_neg _ _ cornersL (fun rc _ => cornerTermGM_neg b p rc)]
    ring
  · intro w b t ht
    rcases ht with rfl | rfl
    · simp [scoreNT]
    · simp [scoreNT]

/-- Witness for C2 at the opening boards of both engines with player 1. -/
theorem score_antisymmetry_app :
    evaluateGM wZero startBoard 1 = -(evaluateGM wZero startBoard (3-1)) ∧
    scoreNT nZero start64 1 = -(scoreNT nZero start64 (-1)) :=
  ⟨score_antisymmetry.1 wZero startBoard 1,
   score_antisymmetry.2 nZero start64 1 (Or.inl rfl)⟩

/-- C4: the search depth is the number of empty cells when at most 14 cells
are empty (exact endgame search), and otherwise a fixed constant between
4 and 6 ply: 4 in the worker revision, 6 in the God-Mode revision. -/
theorem depth_policy (b : Board) :
    (countEmpty b ≤ 14 →
      maxDepthAW b = countEmpty b ∧ maxDepthGM b = countEmpty b) ∧
    (¬ countEmpty b ≤ 14 →
      maxDepthAW b = 4 ∧ maxDepthGM b = 6 ∧
      4 ≤ maxDepthAW b ∧ maxDepthAW b ≤ 6 ∧
      4 ≤ maxDepthGM b ∧ maxDepthGM b ≤ 6) := by
  constructor
  · intro h
    constructor <;> simp [maxDepthAW, maxDepthGM, h]
  · intro h
    have h1 : maxDepthAW b = 4 := by simp [maxDepthAW, h]
    have h2 : maxDepthGM b = 6 := by simp [maxDepthGM, h]
    exact ⟨h1, h2, by omega, by omega, by omega, by omega⟩

/-- Witness for C4 on a full board (0 empty cells, exact branch) and on the
opening board (60 empty cells, fixed-depth branch). -/
theorem depth_policy_app :
    maxDepthAW fullBoard = countEmpty fullBoard ∧
    maxDepthAW startBoard = 4 ∧ maxDepthGM startBoard = 6 :=
  ⟨((depth_policy fullBoard).1 (by decide)).1,
   ((depth_policy startBoard).2 (by decide)).1,
   ((depth_policy startBoard).2 (by decide)).2.1⟩

/-- C9: a drawn game (winner 0) leaves the positional weight table of
either revision untouched. -/
theorem train_draw_noop (w : WTable) (b : Board) (aiP : Int) :
    trainAW w b 0 aiP = w ∧ trainGM w b 0 aiP = w :=
  ⟨by simp [trainAW], by simp [trainGM]⟩

/-- On a board whose only credited disc sits on (0,0), the worker training
loop reduces to the single update step at (0,0). -/
lemma trainAW_bCorner (w : WTable) :
    trainAW w bCorner 1 1 = stepAW bCorner 1 1 w (0, 0) := by
  have hns : ∀ rc ∈ cells.tail, ¬(bCorner rc.1 rc.2 = 1) := by decide
  have hc : cells = (0, 0) :: cells.tail := by decide
  unfold trainAW
  rw [if_neg (by decide : ¬(1:Int) = 0), if_pos rfl, hc, List.foldl_cons]
  exact foldl_noop _ cells.tail
    (fun x hx ww => by unfold stepAW; rw [if_neg (hns x hx)]) _

/-- Counterexample to C6 on the worker revision: starting from a weight
table whose orbit of (0,0) is out of sync (0 at (0,0), 50 at (0,7)), a won
game with a credited black disc on (0,0) leaves the base cell at 3/2 but
the mirror cell (0,7) at 103/2 — the four mirror cells do not end the
update holding one identical value. -/
theorem trainAW_mirror_unequal :
    trainAW wAsym bCorner 1 1 0 0 ≠ trainAW wAsym bCorner 1 1 0 7 := by
  rw [trainAW_bCorner]
  unfold stepAW setW clampAW wAsym bCorner
  norm_num

/-- Counterexample to C7 on the worker revision: from the table constantly
500 (inside the clamp range), training a won game with a credited disc on
(0,0) drives the mirror weight (0,7) to 1003/2, outside the clamp range
[-500, 500]; only the base cell is clamped. -/
theorem trainAW_exceeds_clamp :
    (-500 ≤ w500 0 7 ∧ w500 0 7 ≤ 500) ∧
    ¬ trainAW w500 bCorner 1 1 0 7 ≤ 500 := by
  constructor
  · constructor <;> norm_num [w500]
  · rw [trainAW_bCorner]
    unfold stepAW setW clampAW w500 bCorner
    norm_num

/-!
Characterisation of `canFlip` (claim C1): the fuel-8 ray walk answers true
exactly on the rays described by `FlipRay`.
-/

/-- Every source direction moves by one in at least one coordinate. -/
lemma dir_unit (dr dc : Int) (hd : (dr, dc) ∈ directions) :
    dr = 1 ∨ dr = -1 ∨ dc = 1 ∨ dc = -1 := by
  simp [directions, Prod.mk.injEq] at hd
  omega

/-- Loop invariant of the `canFlip` walk, by induction on the fuel: the walk
from `(nr, nc)` succeeds iff some `k` in-range opponent cells are followed
by a mover's cell, where `k` may be zero only if an opponent disc was
already seen (`h`). -/
lemma canFlipAux_iff (b : Board) (dr dc p : Int) :
    ∀ (f : Nat) (nr nc : Int) (h : Bool),
      canFlipAux b dr dc p f nr nc h = true ↔
        ∃ k : Nat, k + 1 ≤ f ∧
          (∀ j : Nat, j < k →
            inB (nr + j*dr) (nc + j*dc) ∧ b (nr + j*dr) (nc + j*dc) = 3 - p) ∧
          inB (nr + k*dr) (nc + k*dc) ∧ b (nr + k*dr) (nc + k*dc) = p ∧
          (h = true ∨ 1 ≤ k) := by
  intro f
  induction f with
  | zero =>
    intro nr nc h
    constructor
    · intro hfalse; exact absurd hfalse (by simp [canFlipAux])
    · rintro ⟨k, hk, _⟩; omega
  | succ f ih =>
    intro nr nc h
    by_cases hin : inB nr nc
    · by_cases hopp : b nr nc = 3 - p
      · have hstep : canFlipAux b dr dc p (f+1) nr nc h =
            canFlipAux b dr dc p f (nr+dr) (nc+dc) true := by
          simp [canFlipAux, hin, hopp]
        rw [hstep, ih (nr+dr) (nc+dc) true]
        constructor
        · rintro ⟨k, hk, hrun, hinK, hpK, _⟩
          refine ⟨k+1, by omega, ?_, ?_, ?_, Or.inr (by omega)⟩
          · intro j hj
            cases j with
            | zero => simpa using ⟨hin, hopp⟩
            | succ j2 =>
              have hshift1 : nr + ((j2+1 : Nat) : Int)*dr = nr + dr + (j2:Int)*dr := by
                push_cast; ring
              have hshift2 : nc + ((j2+1 : Nat) : Int)*dc = nc + dc + (j2:Int)*dc := by
                push_cast; ring
              rw [hshift1, hshift2]
              exact hrun j2 (by omega)
          · have hshift1 : nr + ((k+1 : Nat) : Int)*dr = nr + dr + (k:Int)*dr := by
              push_cast; ring
            have hshift2 : nc + ((k+1 : Nat) : Int)*dc = nc + dc + (k:Int)*dc := by
              push_cast; ring
            rw [hshift1, hshift2]
            exact hinK
          · have hshift1 : nr + ((k+1 : Nat) : Int)*dr = nr + dr + (k:Int)*dr := by
              push_cast; ring
            have hshift2 : nc + ((k+1 : Nat) : Int)*dc = nc + dc + (k:Int)*dc := by
              push_cast; ring
            rw [hshift1, hshift2]
            exact hpK
        · rintro ⟨k, hk, hrun, hinK, hpK, _⟩
          cases k with
          | zero =>
            exfalso
            have : b (nr + ((0:Nat):Int)*dr) (nc + ((0:Nat):Int)*dc) = p := hpK
            simp only [Nat.cast_zero, zero_mul, add_zero] at this
            omega
          | succ k2 =>
            refine ⟨k2, by omega, ?_, ?_, ?_, Or.inl rfl⟩
            · intro j hj
              have hshift1 : nr + dr + (j:Int)*dr = nr + ((j+1 : Nat) : Int)*dr := by
                push_cast; ring
              have hshift2 : nc + dc + (j:Int)*dc = nc + ((j+1 : Nat) : Int)*dc := by
                push_cast; ring
              rw [hshift1, hshift2]
              exact hrun (j+1) (by omega)
            · have hshift1 : nr + dr + (k2:Int)*dr = nr + ((k2+1 : Nat) : Int)*dr := by
                push_cast; ring
              have hshift2 : nc + dc + (k2:Int)*dc = nc + ((k2+1 : Nat) : Int)*dc := by
                push_cast; ring
              rw [hshift1, hshift2]
              exact hinK
            · have hshift1 : nr + dr + (k2:Int)*dr = nr + ((k2+1 : Nat) : Int)*dr := by
                push_cast; ring
              have hshift2 : nc + dc + (k2:Int)*dc = nc + ((k2+1 : Nat) : Int)*dc := by
                push_cast; ring
              rw [hshift1, hshift2]
              exact hpK
      · by_cases hp : b nr nc = p
        · have hne : ¬ p = 3 - p := by omega
          have hstep : canFlipAux b dr dc p (f+1) nr nc h = h := by
            simp [canFlipAux, hin, hopp, hp, hne]
          rw [hstep]
          constructor
          · intro hh
            refine ⟨0, by omega, by omega, ?_, ?_, Or.inl hh⟩
            · simpa using hin
            · simpa using hp
          · rintro ⟨k, hk, hrun, hinK, hpK, hflag⟩
            cases k with
            | zero => rcases hflag with hh | hh; exact hh; omega
            | succ k2 =>
              exfalso
              have := (hrun 0 (by omega)).2
              simp only [Nat.cast_zero, zero_mul, add_zero] at this
              exact hopp this
        · have hstep : canFlipAux b dr dc p (f+1) nr nc h = false := by
            simp [canFlipAux, hin, hopp, hp]
          rw [hstep]
          constructor
          · intro hfalse; exact absurd hfalse (by simp)
          · rintro ⟨k, hk, hrun, hinK, hpK, hflag⟩
            cases k with
            | zero =>
              have : b (nr + ((0:Nat):Int)*dr) (nc + ((0:Nat):Int)*dc) = p := hpK
              simp only [Nat.cast_zero, zero_mul, add_zero] at this
              exact absurd this hp
            | succ k2 =>
              have := (hrun 0 (by omega)).2
              simp only [Nat.cast_zero, zero_mul, add_zero] at this
              exact absurd this hopp
    · have hstep : canFlipAux b dr dc p (f+1) nr nc h = false := by
        simp [canFlipAux, hin]
      rw [hstep]
      constructor
      · intro hfalse; exact absurd hfalse (by simp)
      · rintro ⟨k, hk, hrun, hinK, hpK, hflag⟩
        cases k with
        | zero =>
          have : inB (nr + ((0:Nat):Int)*dr) (nc + ((0:Nat):Int)*dc) := hinK
          simp only [Nat.cast_zero, zero_mul, add_zero] at this
          exact absurd this hin
        | succ k2 =>
          have := (hrun 0 (by omega)).1
          simp only [Nat.cast_zero, zero_mul, add_zero] at this
          exact absurd this hin

/-- `canFlip` answers true exactly on the rays described by `FlipRay`.  The
fuel bound 8 is never reached: a ray whose cells up to `k+1` stay on the
board has `k ≤ 7`, because every direction moves by one in some
coordinate. -/
lemma canFlip_iff (b : Board) (r c dr dc p : Int)
    (hd : (dr, dc) ∈ directions) :
    canFlip b r c dr dc p = true ↔ FlipRay b r c dr dc p := by
  unfold canFlip
  rw [canFlipAux_iff]
  constructor
  · rintro ⟨k, hk8, hrun, hinK, hpK, hflag⟩
    have hk1 : 1 ≤ k := by
      rcases hflag with hh | hh
      · exact absurd hh (by simp)
      · exact hh
    refine ⟨k, hk1, ?_, ?_, ?_⟩
    · intro j hj1 hjk
      obtain ⟨j2, rfl⟩ : ∃ j2, j = j2 + 1 := ⟨j - 1, by omega⟩
      have e1 : r + dr + (j2:Int)*dr = r + ((j2+1 : Nat):Int)*dr := by
        push_cast; ring
      have e2 : c + dc + (j2:Int)*dc = c + ((j2+1 : Nat):Int)*dc := by
        push_cast; ring
      have := hrun j2 (by omega)
      rw [e1, e2] at this
      exact this
    · have e1 : r + dr + (k:Int)*dr = r + ((k+1 : Nat):Int)*dr := by
        push_cast; ring
      have e2 : c + dc + (k:Int)*dc = c + ((k+1 : Nat):Int)*dc := by
        push_cast; ring
      rw [e1, e2] at hinK
      exact hinK
    · have e1 : r + dr + (k:Int)*dr = r + ((k+1 : Nat):Int)*dr := by
        push_cast; ring
      have e2 : c + dc + (k:Int)*dc = c + ((k+1 : Nat):Int)*dc := by
        push_cast; ring
      rw [e1, e2] at hpK
      exact hpK
  · rintro ⟨K, hK1, hrun, hinP, hpP⟩
    have h1 := (hrun 1 (by omega) hK1).1
    have hK7 : K ≤ 7 := by
      unfold inB at h1 hinP
      rcases dir_unit dr dc hd with h | h | h | h
      · subst h
        obtain ⟨a1, a2, -, -⟩ := h1
        obtain ⟨b1, b2, -, -⟩ := hinP
        push_cast at a1 a2 b1 b2
        omega
      · subst h
        obtain ⟨a1, a2, -, -⟩ := h1
        obtain ⟨b1, b2, -, -⟩ := hinP
        push_cast at a1 a2 b1 b2
        omega
      · subst h
        obtain ⟨-, -, a1, a2⟩ := h1
        obtain ⟨-, -, b1, b2⟩ := hinP
        push_cast at a1 a2 b1 b2
        omega
      · subst h
        obtain ⟨-, -, a1, a2⟩ := h1
        obtain ⟨-, -, b1, b2⟩ := hinP
        push_cast at a1 a2 b1 b2
        omega
    refine ⟨K, by omega, ?_, ?_, ?_, Or.inr hK1⟩
    · intro j hj
      have e1 : r + ((j+1 : Nat):Int)*dr = r + dr + (j:Int)*dr := by
        push_cast; ring
      have e2 : c + ((j+1 : Nat):Int)*dc = c + dc + (j:Int)*dc := by
        push_cast; ring
      have := hrun (j+1) (by omega) (by omega)
      rw [e1, e2] at this
      exact this
    · have e1 : r + ((K:Int) + 1)*dr = r + dr + (K:Int)*dr := by ring
      have e2 : c + ((K:Int) + 1)*dc = c + dc + (K:Int)*dc := by ring
      rw [e1, e2] at hinP
      exact hinP
    · have e1 : r + ((K:Int) + 1)*dr = r + dr + (K:Int)*dr := by ring
      have e2 : c + ((K:Int) + 1)*dc = c + dc + (K:Int)*dc := by ring
      rw [e1, e2] at hpP
      exact hpP

/-- `isValid` characterised: an empty cell with a flippable direction. -/
lemma isValid_iff (b : Board) (r c p : Int) :
    isValid b r c p = true ↔
      (b r c = 0 ∧ ∃ d ∈ directions, FlipRay b r c d.1 d.2 p) := by
  unfold isValid
  by_cases h0 : b r c = 0
  · rw [if_neg (not_not_intro h0), List.any_eq_true]
    constructor
    · rintro ⟨d, hd, hcf⟩
      exact ⟨h0, d, hd, (canFlip_iff b r c d.1 d.2 p hd).1 hcf⟩
    · rintro ⟨-, d, hd, hfr⟩
      exact ⟨d, hd, (canFlip_iff b r c d.1 d.2 p hd).2 hfr⟩
  · simp [h0]

/-!
What `execute` writes: every write of the placement and of the flipping
loops stores the mover's disc, so any cell of the result either kept its
old value or now holds `p`; the flipping loops touch only cells on their
own ray.
-/

/-- A fold each of whose steps fixes the start value leaves it unchanged. -/
lemma foldl_fixpoint {σ α : Type} (f : σ → α → σ) (s0 : σ) :
    ∀ l : List α, (∀ x ∈ l, f s0 x = s0) → l.foldl f s0 = s0 := by
  intro l
  induction l with
  | nil => intro _; rfl
  | cons a t ih =>
    intro h
    simp only [List.foldl_cons, h a (List.mem_cons_self a t)]
    exact ih (fun x hx => h x (List.mem_cons_of_mem a hx))

/-- Any cell after a flipping run either kept its value or holds `p`. -/
lemma flipRun_cases (dr dc p : Int) :
    ∀ (f : Nat) (b : Board) (nr nc x y : Int),
      flipRun dr dc p f b nr nc x y = b x y ∨
      flipRun dr dc p f b nr nc x y = p := by
  intro f
  induction f with
  | zero => intro b nr nc x y; exact Or.inl rfl
  | succ f ih =>
    intro b nr nc x y
    rw [flipRun]
    by_cases hstop : b nr nc = p
    · rw [if_pos hstop]; exact Or.inl rfl
    · rw [if_neg hstop]
      rcases ih (setCell b nr nc p) (nr+dr) (nc+dc) x y with h | h
      · rw [h]
        show (if x = nr ∧ y = nc then p else b x y) = b x y ∨
          (if x = nr ∧ y = nc then p else b x y) = p
        by_cases hxy : x = nr ∧ y = nc
        · rw [if_pos hxy]; exact Or.inr rfl
        · rw [if_neg hxy]; exact Or.inl rfl
      · exact Or.inr h

/-- Any cell after one direction step either kept its value or holds `p`. -/
lemma flipStep_cases (r c p : Int) (b : Board) (d : Int × Int) (x y : Int) :
    flipStep r c p b d x y = b x y ∨ flipStep r c p b d x y = p := by
  unfold flipStep
  by_cases hcf : canFlip b r c d.1 d.2 p = true
  · rw [if_pos hcf]; exact flipRun_cases d.1 d.2 p 8 b (r+d.1) (c+d.2) x y
  · rw [if_neg hcf]; exact Or.inl rfl

/-- Any cell after `execute` either kept its value or holds the mover's
disc. -/
lemma execute_cases (b : Board) (r c p x y : Int) :
    execute b r c p x y = b x y ∨ execute b r c p x y = p := by
  unfold execute
  have := foldl_preserve (flipStep r c p)
    (fun bb => bb x y = b x y ∨ bb x y = p) ?step directions (setCell b r c p) ?init
  · exact this
  case step =>
    intro bb d hbb
    rcases flipStep_cases r c p bb d x y with h | h
    · rw [h]; exact hbb
    · exact Or.inr h
  case init =>
    show (if x = r ∧ y = c then p else b x y) = b x y ∨
      (if x = r ∧ y = c then p else b x y) = p
    by_cases hxy : x = r ∧ y = c
    · rw [if_pos hxy]; exact Or.inr rfl
    · rw [if_neg hxy]; exact Or.inl rfl

/-- The move cell itself holds the mover's disc after `execute`. -/
lemma execute_move_cell (b : Board) (r c p : Int) :
    execute b r c p r c = p := by
  unfold execute
  have := foldl_preserve (flipStep r c p) (fun bb => bb r c = p)
    ?step directions (setCell b r c p) ?init
  · exact this
  case step =>
    intro bb d hbb
    rcases flipStep_cases r c p bb d r c with h | h
    · rw [h]; exact hbb
    · exact h
  case init =>
    show (if r = r ∧ c = c then p else b r c) = p
    rw [if_pos ⟨rfl, rfl⟩]

/-- The `canFlip` walk reads only the cells it visits. -/
lemma canFlipAux_congr (b1 b2 : Board) (dr dc p : Int) :
    ∀ (f : Nat) (nr nc : Int) (h : Bool),
      (∀ j : Nat, b1 (nr + j*dr) (nc + j*dc) = b2 (nr + j*dr) (nc + j*dc)) →
      canFlipAux b1 dr dc p f nr nc h = canFlipAux b2 dr dc p f nr nc h := by
  intro f
  induction f with
  | zero => intro nr nc h _; rfl
  | succ f ih =>
    intro nr nc h hagree
    have h0 := hagree 0
    simp only [Nat.cast_zero, zero_mul, add_zero] at h0
    have hrec : ∀ j : Nat,
        b1 (nr + dr + j*dr) (nc + dc + j*dc) = b2 (nr + dr + j*dr) (nc + dc + j*dc) := by
      intro j
      have e1 : nr + dr + (j:Int)*dr = nr + ((j+1 : Nat):Int)*dr := by
        push_cast; ring
      have e2 : nc + dc + (j:Int)*dc = nc + ((j+1 : Nat):Int)*dc := by
        push_cast; ring
      rw [e1, e2]
      exact hagree (j+1)
    simp only [canFlipAux, h0, ih (nr+dr) (nc+dc) true hrec]

/-- `canFlip` reads only the ray cells (offsets `j ≥ 1`). -/
lemma canFlip_congr (b1 b2 : Board) (r c dr dc p : Int)
    (hagree : ∀ j : Nat, 1 ≤ j →
      b1 (r + j*dr) (c + j*dc) = b2 (r + j*dr) (c + j*dc)) :
    canFlip b1 r c dr dc p = canFlip b2 r c dr dc p := by
  unfold canFlip
  refine canFlipAux_congr b1 b2 dr dc p 8 (r+dr) (c+dc) false (fun j => ?_)
  have e1 : r + dr + (j:Int)*dr = r + ((j+1 : Nat):Int)*dr := by
    push_cast; ring
  have e2 : c + dc + (j:Int)*dc = c + ((j+1 : Nat):Int)*dc := by
    push_cast; ring
  rw [e1, e2]
  exact hagree (j+1) (by omega)

/-- A ray cell (offset `j ≥ 1` along a source direction) is never the
origin. -/
lemma ray_ne_origin (dr dc : Int) (hd : (dr, dc) ∈ directions)
    (r c : Int) (j : Nat) (hj : 1 ≤ j) :
    ¬(r + j*dr = r ∧ c + j*dc = c) := by
  rintro ⟨h1, h2⟩
  have hdr : (j:Int)*dr = 0 := by linarith
  have hdc : (j:Int)*dc = 0 := by linarith
  have hj1 : 1 ≤ (j:Int) := by exact_mod_cast hj
  rcases dir_unit dr dc hd with h | h | h | h <;> subst h <;> omega

/-- Membership in `getValidMoves`, unfolded. -/
lemma mem_getValidMoves (b : Board) (p : Int) (r c : Nat) :
    (r, c) ∈ getValidMoves b p ↔
      (r < 8 ∧ c < 8 ∧ isValid b r c p = true) := by
  unfold getValidMoves cells
  rw [List.mem_filter, List.pair_mem_product, List.mem_range, List.mem_range]
  tauto

/-- C8: applying any legal (non-pass) move strictly increases the number of
discs on the board: the placed disc is new, and flipping only rewrites
discs, never removes one. -/
theorem execute_adds_disc (b : Board) (p : Int) (m : Nat × Nat)
    (hp : p = 1 ∨ p = 2) (hm : m ∈ getValidMoves b p) :
    totalDiscs b + 1 ≤ totalDiscs (execute b m.1 m.2 p) := by
  have hmem := List.mem_filter.1 hm
  have hcells : m ∈ cells := hmem.1
  have hval : isValid b m.1 m.2 p = true := hmem.2
  have h0 : b m.1 m.2 = 0 := ((isValid_iff b m.1 m.2 p).1 hval).1
  have hp0 : p ≠ 0 := by rcases hp with rfl | rfl <;> decide
  have hlt : totalDiscs b < totalDiscs (execute b m.1 m.2 p) := by
    refine countP_lt _ _ cells ?_ m hcells ?_ ?_
    · intro rc _ hne
      rw [decide_eq_true_eq] at hne ⊢
      rcases execute_cases b m.1 m.2 p rc.1 rc.2 with h | h
      · rw [h]; exact hne
      · rw [h]; exact hp0
    · simp [h0]
    · rw [decide_eq_true_eq, execute_move_cell]
      exact hp0
  omega

/-- Witness for C8: the opening move (2,3) of black adds discs (4 before,
6 after: the placed disc plus one flip). -/
theorem execute_adds_disc_app :
    totalDiscs startBoard + 1 ≤ totalDiscs (execute startBoard 2 3 1) :=
  execute_adds_disc startBoard 1 (2, 3) (Or.inl rfl) (by decide)

/-- Every legal move flips at least one opponent disc: the first ray cell of
the first flippable direction held the opponent's disc before the move and
holds the mover's disc afterwards. -/
lemma execute_flips_one (b : Board) (r c p : Int)
    (hval : isValid b r c p = true) :
    ∃ x y : Int, inB x y ∧ ¬(x = r ∧ y = c) ∧ b x y = 3 - p ∧
      execute b r c p x y = p := by
  obtain ⟨h0, hany⟩ : b r c = 0 ∧
      directions.any (fun d => canFlip b r c d.1 d.2 p) = true := by
    unfold isValid at hval
    by_cases hz : b r c = 0
    · rw [if_neg (not_not_intro hz)] at hval; exact ⟨hz, hval⟩
    · rw [if_pos hz] at hval; cases hval
  obtain ⟨L1, d, L2, hsplit, hcf, hL1⟩ := any_first_split _ directions hany
  have hdmem : d ∈ directions := by
    rw [hsplit]; exact List.mem_append_right _ (List.mem_cons_self _ _)
  have hL1mem : ∀ d2 ∈ L1, d2 ∈ directions := by
    intro d2 hd2; rw [hsplit]; exact List.mem_append_left _ hd2
  have hagree : ∀ d2 ∈ directions, ∀ j : Nat, 1 ≤ j →
      setCell b r c p (r + j*d2.1) (c + j*d2.2) = b (r + j*d2.1) (c + j*d2.2) := by
    intro d2 hd2 j hj
    show (if r + (j:Int)*d2.1 = r ∧ c + (j:Int)*d2.2 = c then p
      else b (r + (j:Int)*d2.1) (c + (j:Int)*d2.2)) = b (r + (j:Int)*d2.1) (c + (j:Int)*d2.2)
    rw [if_neg (ray_ne_origin d2.1 d2.2 (by simpa using hd2) r c j hj)]
  have hcf_congr : ∀ d2 ∈ directions,
      canFlip (setCell b r c p) r c d2.1 d2.2 p = canFlip b r c d2.1 d2.2 p := by
    intro d2 hd2
    exact canFlip_congr _ b r c d2.1 d2.2 p (fun j hj => hagree d2 hd2 j hj)
  have hfix : L1.foldl (flipStep r c p) (setCell b r c p) = setCell b r c p := by
    refine foldl_fixpoint _ _ L1 (fun d2 hd2 => ?_)
    unfold flipStep
    have hfalse : canFlip (setCell b r c p) r c d2.1 d2.2 p = false := by
      rw [hcf_congr d2 (hL1mem d2 hd2)]
      exact hL1 d2 hd2
    rw [hfalse]
    simp
  have hexec : execute b r c p =
      L2.foldl (flipStep r c p) (flipStep r c p (setCell b r c p) d) := by
    unfold execute
    rw [hsplit, List.foldl_append, hfix, List.foldl_cons]
  have hcf1 : canFlip (setCell b r c p) r c d.1 d.2 p = true := by
    rw [hcf_congr d hdmem]; exact hcf
  obtain ⟨K, hK1, hrun, -, -⟩ := (canFlip_iff b r c d.1 d.2 p hdmem).1 hcf
  have e1 : r + ((1:Nat):Int)*d.1 = r + d.1 := by push_cast; ring
  have e2 : c + ((1:Nat):Int)*d.2 = c + d.2 := by push_cast; ring
  have hcell1 := hrun 1 (by omega) hK1
  rw [e1, e2] at hcell1
  obtain ⟨hin1, hopp1⟩ := hcell1
  have hb1cell : setCell b r c p (r + d.1) (c + d.2) = b (r + d.1) (c + d.2) := by
    have := hagree d hdmem 1 (by omega)
    rw [e1, e2] at this
    exact this
  have hne1 : ¬(r + d.1 = r ∧ c + d.2 = c) := by
    have := ray_ne_origin d.1 d.2 (by simpa using hdmem) r c 1 (by omega)
    rw [e1, e2] at this
    exact this
  have hflip1 : flipStep r c p (setCell b r c p) d (r + d.1) (c + d.2) = p := by
    unfold flipStep
    rw [if_pos hcf1, show (8:Nat) = 7+1 from rfl, flipRun]
    have hnotp : ¬ setCell b r c p (r + d.1) (c + d.2) = p := by
      rw [hb1cell, hopp1]; omega
    rw [if_neg hnotp]
    rcases flipRun_cases d.1 d.2 p 7 (setCell (setCell b r c p) (r+d.1) (c+d.2) p)
      (r+d.1+d.1) (c+d.2+d.2) (r+d.1) (c+d.2) with h | h
    · rw [h]
      show (if r + d.1 = r + d.1 ∧ c + d.2 = c + d.2 then p
        else setCell b r c p (r + d.1) (c + d.2)) = p
      rw [if_pos ⟨rfl, rfl⟩]
    · exact h
  refine ⟨r + d.1, c + d.2, hin1, hne1, hopp1, ?_⟩
  rw [hexec]
  refine foldl_preserve (flipStep r c p)
    (fun bb => bb (r + d.1) (c + d.2) = p) ?_ L2 _ hflip1
  intro bb d2 hbb
  rcases flipStep_cases r c p bb d2 (r + d.1) (c + d.2) with h | h
  · rw [h]; exact hbb
  · exact h

/-- C1: `getValidMoves` returns exactly the on-board empty cells with at
least one direction whose ray holds a non-empty run of opponent discs
closed by a mover's disc; consequently every returned cell is empty (never
occupied), and applying it flips at least one opponent disc. -/
theorem legalMoves_spec (b : Board) (p : Int) :
    (∀ r c : Nat, (r, c) ∈ getValidMoves b p ↔
      (r < 8 ∧ c < 8 ∧ b r c = 0 ∧ ∃ d ∈ directions, FlipRay b r c d.1 d.2 p)) ∧
    (∀ m ∈ getValidMoves b p, ∃ x y : Int, inB x y ∧ ¬(x = m.1 ∧ y = m.2) ∧
      b x y = 3 - p ∧ execute b m.1 m.2 p x y = p) := by
  constructor
  · intro r c
    rw [mem_getValidMoves, isValid_iff]
  · intro m hm
    exact execute_flips_one b m.1 m.2 p (List.mem_filter.1 hm).2

/-- Witness for C1 at the opening board: black's legal move (2,3) flips an
opponent disc. -/
theorem legalMoves_spec_app :
    ∃ x y : Int, inB x y ∧ ¬(x = ((2:Nat):Int) ∧ y = ((3:Nat):Int)) ∧
      startBoard x y = 3 - 1 ∧ execute startBoard ((2:Nat):Int) ((3:Nat):Int) 1 x y = 1 :=
  (legalMoves_spec startBoard 1).2 (2, 3) (by decide)

/-- Sum of ±1 indicator terms equals the difference of the two counts, for
mutually exclusive predicates. -/
lemma sum_pm_count {α : Type} (P Q : α → Prop) [DecidablePred P]
    [DecidablePred Q] (hx : ∀ a, ¬(P a ∧ Q a)) :
    ∀ l : List α,
      (l.map (fun a => if P a then (1:ℚ) else if Q a then -1 else 0)).sum =
        (l.countP (fun a => decide (P a)) : ℚ) -
        (l.countP (fun a => decide (Q a)) : ℚ) := by
  intro l
  induction l with
  | nil => simp
  | cons a t ih =>
    simp only [List.map_cons, List.sum_cons, List.countP_cons, ih]
    by_cases hP : P a
    · have hQ : ¬ Q a := fun hq => hx a ⟨hP, hq⟩
      simp [hP, hQ]
      ring
    · by_cases hQ : Q a
      · simp [hP, hQ]
        ring
      · simp [hP, hQ]

/-- The terminal evaluation is the disc differential times 1000. -/
lemma evaluateFinal_eq (b : Board) (p : Int) :
    evaluateFinal b p =
      ((sideCount b p : ℚ) - (sideCount b (3-p) : ℚ)) * 1000 := by
  unfold evaluateFinal sideCount
  rw [sum_pm_count (fun rc : Nat × Nat => b rc.1 rc.2 = p)
    (fun rc : Nat × Nat => b rc.1 rc.2 = 3 - p) (fun a => by omega) cells]

/-- C3: at remaining depth `d+1`, when the side to move has no legal move,
`minimax` returns the exact terminal evaluation (the final disc
differential scaled by 1000) if the opponent is also stuck, and otherwise
passes: it recurses with the maximizing flag flipped and exactly one depth
unit consumed. -/
theorem minimax_pass_branch (w : WTable) (b : Board) (d : Nat) (α β : EV)
    (isMax : Bool) (p : Int)
    (h : getValidMoves b (if isMax then p else 3 - p) = []) :
    minimax w (d+1) b α β isMax p =
      (if getValidMoves b (3 - (if isMax then p else 3 - p)) = []
       then toEV (evaluateFinal b p)
       else minimax w d b α β (!isMax) p) ∧
    evaluateFinal b p =
      ((sideCount b p : ℚ) - (sideCount b (3-p) : ℚ)) * 1000 := by
  refine ⟨?_, evaluateFinal_eq b p⟩
  simp only [minimax]
  rw [h]
  simp only [List.isEmpty_nil, if_true]
  by_cases h2 : getValidMoves b (3 - (if isMax then p else 3 - p)) = []
  · rw [h2, if_pos rfl]
    simp
  · rw [if_neg h2]
    rcases hl : getValidMoves b (3 - (if isMax then p else 3 - p)) with - | ⟨a, t⟩
    · exact absurd hl h2
    · simp

/-- Witness for C3 on the all-black full board (both sides stuck): the
search returns the terminal evaluation of 64 black discs. -/
theorem minimax_pass_branch_app :
    minimax wZero (0+1) fullBoard (⊥ : EV) (⊤ : EV) true 1 =
      (if getValidMoves fullBoard (3 - (if true then 1 else 3 - 1)) = []
       then toEV (evaluateFinal fullBoard 1)
       else minimax wZero 0 fullBoard (⊥ : EV) (⊤ : EV) (!true) 1) ∧
    evaluateFinal fullBoard 1 =
      ((sideCount fullBoard 1 : ℚ) - (sideCount fullBoard (3-1) : ℚ)) * 1000 :=
  minimax_pass_branch wZero fullBoard 0 (⊥ : EV) (⊤ : EV) true 1 (by decide)

/-!
The N-tuple TD update (claim C5): the indexed reverse loop of `train` is
the spec's reverse traversal, and `updateWeights` adds
`error * learningRate` to an entry once per symmetry that activates it.
-/

/-- Effect of the inner symmetry loop of `updateWeights` on one entry. -/
lemma bumpNT_fold_inner (b : Board64) (tup : List Nat) (delta : ℚ) (t2 : Nat) :
    ∀ (S : List Nat) (wa : NTable) (t i : Nat),
      (S.foldl (fun w2 s => bumpNT w2 t2 (tupleIndex b s tup) delta) wa) t i =
        wa t i + (if t2 = t then
          (S.countP (fun s => decide (tupleIndex b s tup = i)) : ℚ) * delta
        else 0) := by
  intro S
  induction S with
  | nil => intro wa t i; simp
  | cons s S ih =>
    intro wa t i
    simp only [List.foldl_cons, ih, bumpNT, List.countP_cons]
    by_cases ht : t2 = t
    · subst ht
      by_cases hidx : tupleIndex b s tup = i
      · rw [if_pos ⟨rfl, hidx.symm⟩]
        simp [hidx]
        ring
      · rw [if_neg (fun hc => hidx hc.2.symm)]
        simp [hidx]
    · rw [if_neg (fun hc : t = t2 ∧ i = tupleIndex b s tup => ht hc.1.symm),
        if_neg ht, if_neg ht]

/-- Effect of the full tuple × symmetry loop of `updateWeights` on one
entry: one delta per occurrence of the tuple id times one per activating
symmetry. -/
lemma bumpNT_fold_outer (b : Board64) (delta : ℚ) :
    ∀ (Tl : List Nat) (wa : NTable) (t i : Nat),
      (Tl.foldl (fun wacc t2 =>
        (List.range 8).foldl
          (fun w2 s => bumpNT w2 t2 (tupleIndex b s (rawTuples.getD t2 [])) delta)
          wacc) wa) t i =
      wa t i + (Tl.count t : ℚ) *
        (((List.range 8).countP
          (fun s => decide (tupleIndex b s (rawTuples.getD t []) = i))) : ℚ) * delta := by
  intro Tl
  induction Tl with
  | nil => intro wa t i; simp
  | cons t2 Tl ih =>
    intro wa t i
    simp only [List.foldl_cons, ih, bumpNT_fold_inner]
    by_cases ht : t2 = t
    · subst ht
      rw [if_pos rfl, List.count_cons_self]
      push_cast
      ring
    · rw [if_neg ht, List.count_cons_of_ne (fun h => ht h.symm)]
      ring

/-- `updateWeights` adds `error * learningRate` to the entry of tuple `t`
at index `i` once per symmetry that activates it. -/
lemma updateWeightsNT_apply (w : NTable) (b : Board64) (e : ℚ) (t i : Nat)
    (ht : t < rawTuples.length) :
    updateWeightsNT w b e t i = w t i +
      (((List.range 8).countP
        (fun s => decide (tupleIndex b s (rawTuples.getD t []) = i))) : ℚ) *
      (e * learningRateNT) := by
  unfold updateWeightsNT
  rw [bumpNT_fold_outer b (e * learningRateNT) (List.range rawTuples.length) w t i,
    List.count_eq_one_of_mem (List.nodup_range _) (List.mem_range.2 ht)]
  push_cast
  ring

/-- The indexed reverse loop of `train`, characterised as a left fold over
the reversed history prefix. -/
lemma trainAux_eq_take (hist : List (Board64 × Int)) :
    ∀ (k : Nat), k ≤ hist.length → ∀ (w : NTable) (target : ℚ),
      trainAux hist k w target =
        ((hist.take k).reverse.foldl
          (fun acc st =>
            let currentVal := evaluateNT acc.1 st.1
            (updateWeightsNT acc.1 st.1 (acc.2 - currentVal), currentVal))
          (w, target)).1 := by
  intro k
  induction k with
  | zero => intro _ w target; rfl
  | succ k ih =>
    intro hk w target
    have hklt : k < hist.length := by omega
    have hget : hist.getD k ((fun _ => 0), 0) = hist[k] :=
      List.getD_eq_getElem hist _ hklt
    have htake : (hist.take (k+1)).reverse = hist[k] :: (hist.take k).reverse := by
      rw [← List.take_concat_get' hist k hklt, List.reverse_append]
      rfl
    simp only [trainAux]
    rw [hget, htake, List.foldl_cons]
    exact ih (by omega) _ _

/-- C5: the N-tuple training procedure is the spec's reverse traversal: a
running target starts at the final result; each step computes
`currentValue` on the current tables, adds `(target - currentValue) *
learningRate` to the entry of every active tuple × symmetry combination
(one delta per activating symmetry, with the indexing of `evaluate`), and
then moves the target to `currentValue` before stepping to the previous
ply. -/
theorem train_td_reverse :
    (∀ (w : NTable) (hist : List (Board64 × Int)) (result : ℚ),
      train w hist result = trainSpec w hist result) ∧
    (∀ (w : NTable) (b : Board64) (e : ℚ) (t i : Nat), t < rawTuples.length →
      updateWeightsNT w b e t i = w t i +
        (((List.range 8).countP
          (fun s => decide (tupleIndex b s (rawTuples.getD t []) = i))) : ℚ) *
        (e * learningRateNT)) ∧
    (∀ (b : Board64) (t s : Nat), t < rawTuples.length → s < 8 →
      0 < (List.range 8).countP
        (fun s2 => decide (tupleIndex b s2 (rawTuples.getD t []) =
          tupleIndex b s (rawTuples.getD t [])))) := by
  refine ⟨?_, ?_, ?_⟩
  · intro w hist result
    unfold train trainSpec
    rw [trainAux_eq_take hist hist.length le_rfl w result, List.take_length]
  · intro w b e t i ht
    exact updateWeightsNT_apply w b e t i ht
  · intro b t s ht hs
    exact List.countP_pos_iff.2 ⟨s, List.mem_range.2 hs, by simp⟩

/-- Witness for C5: the update touches tuple 2 of the opening board with
one delta per activating symmetry. -/
theorem train_td_reverse_app :
    updateWeightsNT nZero start64 1 2 5 = nZero 2 5 +
      (((List.range 8).countP
        (fun s => decide (tupleIndex start64 s (rawTuples.getD 2 []) = 5))) : ℚ) *
      (1 * learningRateNT) :=
  train_td_reverse.2.1 nZero start64 1 2 5 (by decide)

/-!
The God-Mode symmetric update (claims C6 and C7): `writeOrbit` stores one
value into a whole mirror orbit, so orbits touched by the loop end
unified, and every written value is the clamped one.
-/

/-- Reading a single-cell update. -/
lemma setW_apply (w : WTable) (r c : Int) (v : ℚ) (x y : Int) :
    setW w r c v x y = if x = r ∧ y = c then v else w x y := rfl

/-- Reading inside the written orbit yields the written value. -/
lemma writeOrbit_mem (w : WTable) (a b : Int) (v : ℚ) (x y : Int)
    (h : OrbMem x y a b) : writeOrbit w a b v x y = v := by
  have ha : ¬ (a : Int) = 7 - a := by omega
  have hb : ¬ (b : Int) = 7 - b := by omega
  simp only [writeOrbit, setW_apply]
  rcases h with ⟨rfl, rfl⟩ | ⟨rfl, rfl⟩ | ⟨rfl, rfl⟩ | ⟨rfl, rfl⟩
  · rw [if_neg (fun hc => ha hc.1), if_neg (fun hc => ha hc.1),
      if_neg (fun hc => hb hc.2), if_pos ⟨rfl, rfl⟩]
  · rw [if_neg (fun hc => ha hc.1), if_neg (fun hc => ha hc.1),
      if_pos ⟨rfl, rfl⟩]
  · rw [if_neg (fun hc => hb hc.2), if_pos ⟨rfl, rfl⟩]
  · rw [if_pos ⟨rfl, rfl⟩]

/-- Reading outside the written orbit is unchanged. -/
lemma writeOrbit_not_mem (w : WTable) (a b : Int) (v : ℚ) (x y : Int)
    (h : ¬ OrbMem x y a b) : writeOrbit w a b v x y = w x y := by
  simp only [writeOrbit, setW_apply]
  rw [if_neg (fun hc => h (Or.inr (Or.inr (Or.inr hc)))),
    if_neg (fun hc => h (Or.inr (Or.inr (Or.inl hc)))),
    if_neg (fun hc => h (Or.inr (Or.inl hc))),
    if_neg (fun hc => h (Or.inl hc))]

lemma orbMem_symm {x y a b : Int} (h : OrbMem x y a b) : OrbMem a b x y := by
  unfold OrbMem at h ⊢
  omega

lemma orbMem_mirror_c (x y a b : Int) :
    OrbMem x (7-y) a b ↔ OrbMem x y a b := by
  unfold OrbMem
  omega

lemma orbMem_mirror_r (x y a b : Int) :
    OrbMem (7-x) y a b ↔ OrbMem x y a b := by
  unfold OrbMem
  omega

/-- One God-Mode update step preserves a unified orbit. -/
lemma stepGM_orbEq (board : Board) (aiP : Int) (sign : ℚ) (r c : Int)
    (w : WTable) (rc : Nat × Nat) (h : OrbEq w r c) :
    OrbEq (stepGM board aiP sign w rc) r c := by
  unfold stepGM
  by_cases hb : board rc.1 rc.2 = aiP
  · rw [if_pos hb]
    by_cases hmem : OrbMem (rc.1) (rc.2) r c
    · have h1 : OrbMem r c rc.1 rc.2 := orbMem_symm hmem
      have h2 : OrbMem r (7-c) rc.1 rc.2 := (orbMem_mirror_c r c rc.1 rc.2).2 h1
      have h3 : OrbMem (7-r) c rc.1 rc.2 := (orbMem_mirror_r r c rc.1 rc.2).2 h1
      have h4 : OrbMem (7-r) (7-c) rc.1 rc.2 :=
        (orbMem_mirror_r r (7-c) rc.1 rc.2).2 h2
      unfold OrbEq
      rw [writeOrbit_mem _ _ _ _ _ _ h1, writeOrbit_mem _ _ _ _ _ _ h2,
        writeOrbit_mem _ _ _ _ _ _ h3, writeOrbit_mem _ _ _ _ _ _ h4]
      exact ⟨rfl, rfl, rfl⟩
    · have h1 : ¬ OrbMem r c rc.1 rc.2 := fun hc => hmem (orbMem_symm hc)
      have h2 : ¬ OrbMem r (7-c) rc.1 rc.2 :=
        fun hc => h1 ((orbMem_mirror_c r c rc.1 rc.2).1 hc)
      have h3 : ¬ OrbMem (7-r) c rc.1 rc.2 :=
        fun hc => h1 ((orbMem_mirror_r r c rc.1 rc.2).1 hc)
      have h4 : ¬ OrbMem (7-r) (7-c) rc.1 rc.2 :=
        fun hc => h2 ((orbMem_mirror_r r (7-c) rc.1 rc.2).1 hc)
      unfold OrbEq
      rw [writeOrbit_not_mem _ _ _ _ _ _ h1, writeOrbit_not_mem _ _ _ _ _ _ h2,
        writeOrbit_not_mem _ _ _ _ _ _ h3, writeOrbit_not_mem _ _ _ _ _ _ h4]
      exact h
  · rw [if_neg hb]
    exact h

/-- Processing an occupied cell unifies its orbit. -/
lemma stepGM_establish (board : Board) (aiP : Int) (sign : ℚ)
    (rc : Nat × Nat) (hb : board rc.1 rc.2 = aiP) (w : WTable) :
    OrbEq (stepGM board aiP sign w rc) rc.1 rc.2 := by
  unfold stepGM
  rw [if_pos hb]
  have h1 : OrbMem (rc.1) (rc.2) rc.1 rc.2 := Or.inl ⟨rfl, rfl⟩
  have h2 : OrbMem (rc.1) (7-(rc.2:Int)) rc.1 rc.2 :=
    (orbMem_mirror_c rc.1 rc.2 rc.1 rc.2).2 h1
  have h3 : OrbMem (7-(rc.1:Int)) (rc.2) rc.1 rc.2 :=
    (orbMem_mirror_r rc.1 rc.2 rc.1 rc.2).2 h1
  have h4 : OrbMem (7-(rc.1:Int)) (7-(rc.2:Int)) rc.1 rc.2 :=
    (orbMem_mirror_r rc.1 (7-(rc.2:Int)) rc.1 rc.2).2 h2
  unfold OrbEq
  rw [writeOrbit_mem _ _ _ _ _ _ h1, writeOrbit_mem _ _ _ _ _ _ h2,
    writeOrbit_mem _ _ _ _ _ _ h3, writeOrbit_mem _ _ _ _ _ _ h4]
  exact ⟨rfl, rfl, rfl⟩

/-- C6 (amended): in the God-Mode (part_001) revision, for every cell held
by the credited side the nudged-and-clamped value is written into the cell
and its three mirror images, so after training all four hold one identical
value.  (The worker revision instead updates the four cells additively and
clamps only the base cell; see the counterexample.) -/
theorem trainGM_unifies (w : WTable) (board : Board) (winner aiP : Int)
    (r c : Nat) (hw : winner ≠ 0) (hr : r < 8) (hc : c < 8)
    (hb : board r c = aiP) :
    trainGM w board winner aiP r c = trainGM w board winner aiP r (7 - (c:Int)) ∧
    trainGM w board winner aiP r c = trainGM w board winner aiP (7 - (r:Int)) c ∧
    trainGM w board winner aiP r c =
      trainGM w board winner aiP (7 - (r:Int)) (7 - (c:Int)) := by
  show OrbEq (trainGM w board winner aiP) r c
  unfold trainGM
  rw [if_neg hw]
  have hmem : (r, c) ∈ cells := by
    unfold cells
    rw [List.pair_mem_product]
    exact ⟨List.mem_range.2 hr, List.mem_range.2 hc⟩
  obtain ⟨l1, l2, hsplit⟩ := List.append_of_mem hmem
  rw [hsplit, List.foldl_append, List.foldl_cons]
  refine foldl_preserve _ (fun ww => OrbEq ww r c)
    (fun ww rc2 hww => stepGM_orbEq board aiP _ r c ww rc2 hww) l2 _ ?_
  exact stepGM_establish board aiP _ (r, c) hb _

/-- Witness for C6 (amended) on a board with a single credited disc at
(2,3). -/
theorem trainGM_unifies_app :
    trainGM wZero bMid 1 1 2 3 = trainGM wZero bMid 1 1 2 (7 - ((3:Nat):Int)) ∧
    trainGM wZero bMid 1 1 2 3 = trainGM wZero bMid 1 1 (7 - ((2:Nat):Int)) 3 ∧
    trainGM wZero bMid 1 1 2 3 =
      trainGM wZero bMid 1 1 (7 - ((2:Nat):Int)) (7 - ((3:Nat):Int)) :=
  trainGM_unifies wZero bMid 1 1 2 3 (by decide) (by decide) (by decide) (by decide)

/-- C7 (amended): in the God-Mode revision every weight the training
procedure writes — the base cell and its three mirrors, which receive the
same written value — is the clamped one, so after any `train` call every
entry either kept its old value or lies in the clamp range [-200, 200].
(In the worker revision only the base cell is clamped and mirror writes can
leave the range; see the counterexample.) -/
theorem trainGM_clamped (w : WTable) (board : Board) (winner aiP : Int)
    (x y : Int) :
    trainGM w board winner aiP x y = w x y ∨
    (-200 ≤ trainGM w board winner aiP x y ∧
      trainGM w board winner aiP x y ≤ 200) := by
  unfold trainGM
  by_cases hw : winner = 0
  · rw [if_pos hw]
    exact Or.inl rfl
  · rw [if_neg hw]
    refine foldl_preserve _
      (fun ww => ww x y = w x y ∨ (-200 ≤ ww x y ∧ ww x y ≤ 200))
      ?_ cells w (Or.inl rfl)
    intro ww rc hww
    unfold stepGM
    by_cases hb : board rc.1 rc.2 = aiP
    · rw [if_pos hb]
      by_cases hmem : OrbMem x y rc.1 rc.2
      · rw [writeOrbit_mem _ _ _ _ _ _ hmem]
        refine Or.inr ⟨le_max_left _ _, max_le (by norm_num) (min_le_left _ _)⟩
      · rw [writeOrbit_not_mem _ _ _ _ _ _ hmem]
        exact hww
    · rw [if_neg hb]
      exact hww

/-!
`getBestMove` (claim C10): the scan over the ordered legal moves only ever
holds a legal move, and the pass value is returned exactly on an empty
legal-move list.
-/

lemma mem_insertSorted (le : (Nat × Nat) → (Nat × Nat) → Bool) (x : Nat × Nat) :
    ∀ (l : List (Nat × Nat)) (y : Nat × Nat),
      y ∈ insertSorted le x l ↔ y = x ∨ y ∈ l := by
  intro l
  induction l with
  | nil => intro y; simp [insertSorted]
  | cons a t ih =>
    intro y
    unfold insertSorted
    by_cases hle : le x a
    · rw [if_pos hle]
      simp [List.mem_cons]
    · rw [if_neg hle]
      simp only [List.mem_cons, ih]
      tauto

lemma mem_sortBy (le : (Nat × Nat) → (Nat × Nat) → Bool)
    (l : List (Nat × Nat)) (y : Nat × Nat) :
    y ∈ sortBy le l ↔ y ∈ l := by
  unfold sortBy
  induction l with
  | nil => simp
  | cons a t ih =>
    simp only [List.foldr_cons, mem_insertSorted, ih, List.mem_cons]

/-- The best-so-far scan of the worker's root search never leaves the
scanned list's superset. -/
lemma foldl_best_mem {α : Type} (S : List α) (vf : EV → α → EV) :
    ∀ (l : List α) (st : α × EV), (∀ x ∈ l, x ∈ S) → st.1 ∈ S →
      (l.foldl (fun st m =>
        let v := vf st.2 m
        if st.2 < v then (m, v) else st) st).1 ∈ S := by
  intro l
  induction l with
  | nil => intro st _ h; exact h
  | cons a t ih =>
    intro st hl hst
    simp only [List.foldl_cons]
    refine ih _ (fun x hx => hl x (List.mem_cons_of_mem a hx)) ?_
    show (if st.2 < vf st.2 a then (a, vf st.2 a) else st).1 ∈ S
    by_cases hc : st.2 < vf st.2 a
    · rw [if_pos hc]
      exact hl a (List.mem_cons_self a t)
    · rw [if_neg hc]
      exact hst

/-- The best-so-far scan of the N-tuple root search keeps a scanned move
once one has been recorded. -/
lemma foldl_bestNT_mem (S : List Nat) (vf : Nat → ℚ) :
    ∀ (l : List Nat) (st : WithBot ℚ × Int), (∀ x ∈ l, x ∈ S) →
      (∃ i ∈ S, st.2 = (i : Int)) →
      ∃ i ∈ S, (l.foldl (fun st move =>
        if st.1 < ((vf move : ℚ) : WithBot ℚ)
        then (((vf move : ℚ) : WithBot ℚ), (move : Int))
        else st) st).2 = (i : Int) := by
  intro l
  induction l with
  | nil => intro st _ h; exact h
  | cons a t ih =>
    intro st hl hst
    simp only [List.foldl_cons]
    refine ih _ (fun x hx => hl x (List.mem_cons_of_mem a hx)) ?_
    by_cases hc : st.1 < ((vf a : ℚ) : WithBot ℚ)
    · rw [if_pos hc]
      exact ⟨a, hl a (List.mem_cons_self a t), rfl⟩
    · rw [if_neg hc]
      exact hst

/-- C10: whenever the legal-move set is non-empty, `getBestMove` of either
engine returns one of its members (never an occupied or non-flipping
cell), and it returns the pass value (`null`, modelled as `none`, for the
worker; `-1` for the N-tuple core) exactly when the legal-move set is
empty. -/
theorem bestMove_in_legal :
    (∀ (w : WTable) (b : Board) (p : Int),
      (getBestMove w b p = none ↔ getValidMoves b p = []) ∧
      ∀ m, getBestMove w b p = some m → m ∈ getValidMoves b p) ∧
    (∀ (w : NTable) (b : Board64) (turn : Int),
      (getBestMoveNT w b turn = -1 ↔ getLegalMoves64 b turn = []) ∧
      (getLegalMoves64 b turn ≠ [] →
        ∃ i ∈ getLegalMoves64 b turn, getBestMoveNT w b turn = (i : Int))) := by
  constructor
  · intro w b p
    by_cases hemp : getValidMoves b p = []
    · have hnone : getBestMove w b p = none := by
        simp [getBestMove, hemp]
      refine ⟨by simp [hnone, hemp], ?_⟩
      intro m hm
      rw [hnone] at hm
      cases hm
    · obtain ⟨a, t, hmov⟩ : ∃ a t, getValidMoves b p = a :: t := by
        rcases h2 : getValidMoves b p with - | ⟨a, t⟩
        · exact absurd h2 hemp
        · exact ⟨a, t, rfl⟩
      have hmem : ∀ x ∈ sortBy
          (fun m1 m2 => decide (w m2.1 m2.2 ≤ w m1.1 m1.2)) (getValidMoves b p),
          x ∈ getValidMoves b p :=
        fun x hx => (mem_sortBy _ _ _).1 hx
      have hne2 : (getValidMoves b p).isEmpty = false := by
        rw [hmov]
        rfl
      have hsome : getBestMove w b p = some
          (((sortBy (fun m1 m2 => decide (w m2.1 m2.2 ≤ w m1.1 m1.2))
            (getValidMoves b p)).foldl (fun st m =>
              let v := minimax w (maxDepthAW b - 1) (execute b m.1 m.2 p)
                st.2 (⊤ : EV) false p
              if st.2 < v then (m, v) else st)
            ((sortBy (fun m1 m2 => decide (w m2.1 m2.2 ≤ w m1.1 m1.2))
              (getValidMoves b p)).headI, (⊥ : EV))).1) := by
        simp only [getBestMove, hne2, Bool.false_eq_true, if_false]
      refine ⟨by simp [hsome, hemp], ?_⟩
      intro m hm
      rw [hsome] at hm
      injection hm with hm2
      rw [← hm2]
      have hhead : (sortBy (fun m1 m2 => decide (w m2.1 m2.2 ≤ w m1.1 m1.2))
          (getValidMoves b p)).headI ∈ getValidMoves b p := by
        rcases hs : sortBy (fun m1 m2 => decide (w m2.1 m2.2 ≤ w m1.1 m1.2))
            (getValidMoves b p) with - | ⟨s2, ss⟩
        · exfalso
          have ha2 : a ∈ sortBy (fun m1 m2 => decide (w m2.1 m2.2 ≤ w m1.1 m1.2))
              (getValidMoves b p) := by
            rw [mem_sortBy, hmov]
            exact List.mem_cons_self a t
          rw [hs] at ha2
          cases ha2
        · have hs2 : s2 ∈ sortBy (fun m1 m2 => decide (w m2.1 m2.2 ≤ w m1.1 m1.2))
              (getValidMoves b p) := by
            rw [hs]
            exact List.mem_cons_self s2 ss
          exact hmem s2 hs2
      exact foldl_best_mem (getValidMoves b p)
        (fun α2 m2 => minimax w (maxDepthAW b - 1) (execute b m2.1 m2.2 p)
          α2 (⊤ : EV) false p)
        (sortBy (fun m1 m2 => decide (w m2.1 m2.2 ≤ w m1.1 m1.2))
          (getValidMoves b p))
        ((sortBy (fun m1 m2 => decide (w m2.1 m2.2 ≤ w m1.1 m1.2))
          (getValidMoves b p)).headI, (⊥ : EV)) hmem hhead
  · intro w b turn
    by_cases hemp : getLegalMoves64 b turn = []
    · have hpass : getBestMoveNT w b turn = -1 := by
        simp [getBestMoveNT, hemp]
      exact ⟨by simp [hpass, hemp], fun h => absurd hemp h⟩
    · obtain ⟨a, t, hmov⟩ : ∃ a t, getLegalMoves64 b turn = a :: t := by
        rcases h2 : getLegalMoves64 b turn with - | ⟨a, t⟩
        · exact absurd h2 hemp
        · exact ⟨a, t, rfl⟩
      have hne2 : (getLegalMoves64 b turn).isEmpty = false := by
        rw [hmov]
        rfl
      have hfold : ∃ i ∈ getLegalMoves64 b turn,
          getBestMoveNT w b turn = (i : Int) := by
        have hunfold : getBestMoveNT w b turn =
            ((getLegalMoves64 b turn).foldl (fun st move =>
              if st.1 < ((scoreNT w (simulateMove b move turn) turn : ℚ) : WithBot ℚ)
              then (((scoreNT w (simulateMove b move turn) turn : ℚ) : WithBot ℚ),
                (move : Int))
              else st) ((⊥ : WithBot ℚ), (-1 : Int))).2 := by
          simp only [getBestMoveNT, hne2, Bool.false_eq_true, if_false]
        rw [hunfold, hmov]
        simp only [List.foldl_cons]
        rw [if_pos (WithBot.bot_lt_coe _)]
        exact foldl_bestNT_mem (a :: t)
          (fun move => scoreNT w (simulateMove b move turn) turn) t
          (((scoreNT w (simulateMove b a turn) turn : ℚ) : WithBot ℚ), (a : Int))
          (fun x hx => List.mem_cons_of_mem a hx)
          ⟨a, List.mem_cons_self a t, rfl⟩
      refine ⟨⟨fun hpass => ?_, fun hnil => absurd hnil hemp⟩, fun _ => hfold⟩
      obtain ⟨i, hi, hval⟩ := hfold
      rw [hval] at hpass
      omega

/-- Witness for C10: on the opening boards, the N-tuple engine picks one of
its legal moves, and the worker engine passes exactly on the stuck full
board. -/
theorem bestMove_in_legal_app :
    (∃ i ∈ getLegalMoves64 start64 1, getBestMoveNT nZero start64 1 = (i : Int)) ∧
    (getBestMove wZero fullBoard 1 = none ↔ getValidMoves fullBoard 1 = []) :=
  ⟨(bestMove_in_legal.2 nZero start64 1).2 (by decide),
   (bestMove_in_legal.1 wZero fullBoard 1).1⟩
